import Mathlib

/-!
Verification of the oscilloscope signal pipeline in
src/surge-xt/gui/overlays/Oscilloscope.cpp.

Shallow embedding conventions:
* C++ float and double values are modelled as exact rationals.  The
  constants std::numeric_limits<float>::lowest() and max() used as
  running-extrema sentinels are represented by their exact rational
  values, -(2^24-1)*2^104 and (2^24-1)*2^104.
* The derived per-call quantities computed at the top of
  WaveformDisplay::process from the raw dial fields (gain(),
  triggerLevel(), triggerLimit, triggerSpeed, counterSpeed(), R) are
  carried directly as fields of the embedded Parameters record, since
  claims quantify over these derived values.  getWidth() and getHeight()
  are constant during a process call and are carried the same way.
* The decimation buffer peaks and its sync copy hold the y coordinates
  of the point pairs (the x coordinates are fixed at construction and
  never change), as lists of rationals of length 2*width.
-/

namespace Oscilloscope

/-- juce::jlimit: clamp a value into a closed interval. -/
def jlimit (lo hi x : ℚ) : ℚ :=
  if x < lo then lo else if hi < x then hi else x

/-- juce::jmap: linear remap of v from the source range to the target range. -/
def jmap (v s0 s1 t0 t1 : ℚ) : ℚ :=
  t0 + (t1 - t0) * (v - s0) / (s1 - s0)

/-- Exact value of std::numeric_limits<float>::lowest(). -/
def floatLowest : ℚ := -((2 ^ 24 - 1) * 2 ^ 104)

/-- Exact value of std::numeric_limits<float>::max(). -/
def floatMax : ℚ := (2 ^ 24 - 1) * 2 ^ 104

/-- Denormal snap of the DC filter: values smaller than 1e-10 in
magnitude are replaced by exactly zero. -/
def snap (x : ℚ) : ℚ := if |x| < 1 / 10 ^ 10 then 0 else x

namespace WaveformDisplay

/-- Trigger modes of WaveformDisplay, in the order of the C++ enum. -/
inductive TriggerType where
  | kTriggerFree
  | kTriggerRising
  | kTriggerFalling
  | kTriggerInternal
  deriving DecidableEq, Repr

open TriggerType

/-- Parameters of one WaveformDisplay::process call: boolean switches,
the trigger mode, the derived numeric quantities computed in its
preamble, and the component dimensions. -/
structure Parameters where
  trigger_type : TriggerType
  freeze : Bool
  dc_kill : Bool
  sync_draw : Bool
  gain : ℚ
  triggerLevel : ℚ
  triggerLimit : ℤ
  triggerSpeed : ℚ
  counterSpeed : ℚ
  R : ℚ
  width : ℕ
  height : ℚ
  deriving DecidableEq, Repr

/-- Runtime state of the waveform engine: the DC filter accumulator and
its previous input, the previous gained sample, the internal trigger
phase, the retrigger-lockout counter, the fractional pixel counter, the
running extrema with the last-extremum flag, the pixel write index, the
decimation buffer and its sync copy. -/
structure State where
  dcKill : ℚ
  dcFilterTemp : ℚ
  previousSample : ℚ
  triggerPhase : ℚ
  triggerLimitPhase : ℤ
  counter : ℚ
  maxv : ℚ
  minv : ℚ
  lastIsMax : Bool
  index : ℕ
  peaks : List ℚ
  copy : List ℚ
  deriving DecidableEq, Repr

/-- DC filter update: dc = f - dcFilterTemp + R*dc, with the result
snapped to zero when smaller than 1e-10 in magnitude. -/
def dcUpdate (p : Parameters) (s : State) (f : ℚ) : ℚ :=
  snap (f - s.dcFilterTemp + p.R * s.dcKill)

/-- Gained, clamped sample fed to the trigger and decimation logic:
the (optionally DC-filtered) input times gain, clamped to [-1, 1]. -/
def gainedSample (p : Parameters) (s : State) (f : ℚ) : ℚ :=
  jlimit (-1) 1 ((if p.dc_kill then dcUpdate p s f else f) * p.gain)

/-- Raw trigger condition of the switch statement, per trigger mode,
before the retrigger lockout. -/
def fires (p : Parameters) (s : State) (sample : ℚ) : Bool :=
  match p.trigger_type with
  | kTriggerInternal => decide (1 ≤ s.triggerPhase + p.triggerSpeed)
  | kTriggerRising =>
      decide (p.triggerLevel ≤ sample ∧ s.previousSample < p.triggerLevel)
  | kTriggerFalling =>
      decide (sample ≤ p.triggerLevel ∧ p.triggerLevel < s.previousSample)
  | kTriggerFree => decide (p.width ≤ s.index)

/-- Internal oscillator phase after the switch statement: advanced by
triggerSpeed, wrapped past 1.0 when it fires. -/
def nextPhase (p : Parameters) (s : State) : ℚ :=
  match p.trigger_type with
  | kTriggerInternal =>
      if 1 ≤ s.triggerPhase + p.triggerSpeed then s.triggerPhase + p.triggerSpeed - 1
      else s.triggerPhase + p.triggerSpeed
  | _ => s.triggerPhase

/-- Trigger decision after the retrigger lockout: a fired trigger is
killed when fewer than triggerLimit samples have elapsed since the last
accepted trigger, unless the mode is Free or Internal. -/
def acceptedTrigger (p : Parameters) (s : State) (sample : ℚ) : Bool :=
  let t := fires p s sample
  if t = true ∧ s.triggerLimitPhase + 1 < p.triggerLimit ∧
      p.trigger_type ≠ kTriggerFree ∧ p.trigger_type ≠ kTriggerInternal then
    false
  else t

/-- Overwrite every list entry at a position at or past start with c.
This is the zero-peaks loop of the trigger block, which sets the y of
peaks[j] and peaks[j+1] to the centerline for every even j from
index*2 up to width*2. -/
def zeroTail (c : ℚ) : ℕ → List ℚ → List ℚ
  | _, [] => []
  | 0, _ :: ys => c :: zeroTail c 0 ys
  | start + 1, y :: ys => y :: zeroTail c start ys

/-- Centerline y value: zero amplitude mapped to component coordinates. -/
def centerY (p : Parameters) : ℚ := jmap 0 (-1) 1 p.height 0

/-- Trigger block of WaveformDisplay::process: zero the pixel columns
from the write index to the end of the buffer, copy the whole buffer
into the sync copy, then reset the write index, the fractional pixel
counter, the running extrema and the retrigger-lockout counter.  The
copy loop runs over all width*2 entries of both buffers, which have
exactly that length, so it is modelled as a whole-buffer assignment. -/
def afterTrigger (p : Parameters) (s : State) : State :=
  let zeroed := zeroTail (centerY p) (2 * s.index) s.peaks
  { s with
    peaks := zeroed
    copy := zeroed
    index := 0
    counter := 1
    maxv := floatLowest
    minv := floatMax
    triggerLimitPhase := 0 }

/-- Extremum tracking: raise the running max (tagging the last extremum
as the max), then lower the running min (tagging it as the min). -/
def extremaUpdate (sample : ℚ) (s : State) : State :=
  { s with
    maxv := if s.maxv < sample then sample else s.maxv
    minv := if sample < s.minv then sample else s.minv
    lastIsMax :=
      if sample < s.minv then false
      else if s.maxv < sample then true else s.lastIsMax }

/-- Pixel-boundary block: the fractional counter grows by counterSpeed;
when it reaches 1.0 and the write index is still below the display
width, the scaled (min, max) pair is written into the decimation buffer
in the order given by the last-extremum flag and the index advances;
in either case the extrema reset and 1.0 is subtracted from the
counter.  The returned flag records whether a pixel column was written. -/
def boundaryStep (p : Parameters) (s : State) : State × Bool :=
  let c := s.counter + p.counterSpeed
  if 1 ≤ c then
    let s1 :=
      if s.index < p.width then
        let maxY := jmap s.maxv (-1) 1 p.height 0
        let minY := jmap s.minv (-1) 1 p.height 0
        { s with
          peaks := (s.peaks.set (2 * s.index) (if s.lastIsMax then minY else maxY)).set
              (2 * s.index + 1) (if s.lastIsMax then maxY else minY)
          index := s.index + 1 }
      else s
    ({ s1 with maxv := floatLowest, minv := floatMax, counter := c - 1 },
      decide (s.index < p.width))
  else ({ s with counter := c }, false)

/-- Body of the per-sample loop of WaveformDisplay::process.  Returns
the new state together with the accepted-trigger flag and the
pixel-written flag of this sample. -/
def processSample (p : Parameters) (s : State) (f : ℚ) : State × Bool × Bool :=
  let sample := gainedSample p s f
  let acc := acceptedTrigger p s sample
  let s1 : State :=
    { s with
      dcKill := dcUpdate p s f
      dcFilterTemp := f
      triggerPhase := nextPhase p s
      triggerLimitPhase := s.triggerLimitPhase + 1 }
  let s2 := if acc then afterTrigger p s1 else s1
  let s3 := extremaUpdate sample s2
  let r := boundaryStep p s3
  ({ r.1 with previousSample := sample }, acc, r.2)

/-- Per-sample loop over a whole block, collecting the per-sample
accepted-trigger and pixel-written flags. -/
def processList (p : Parameters) (s : State) : List ℚ → State × List (Bool × Bool)
  | [] => (s, [])
  | f :: fs =>
    let r := processSample p s f
    let rest := processList p r.1 fs
    (rest.1, (r.2.1, r.2.2) :: rest.2)

/-- WaveformDisplay::process: returns immediately when frozen, otherwise
runs the per-sample loop over the block. -/
def process (p : Parameters) (s : State) (data : List ℚ) : State :=
  if p.freeze then s else (processList p s data).1

/-- Evolution of the DC filter pair (dcKill accumulator, previous
input) under the constant zero input signal, one processed sample per
iteration count. -/
def dcIter (R : ℚ) : ℕ → ℚ × ℚ → ℚ × ℚ
  | 0, st => st
  | n + 1, st => dcIter R n (snap (0 - st.2 + R * st.1), 0)

/-- Concrete rising-edge parameter set used to instantiate theorems on
a sample run. -/
def pRiseW : Parameters :=
  { trigger_type := kTriggerRising, freeze := false, dc_kill := false, sync_draw := false,
    gain := 1, triggerLevel := 0, triggerLimit := 1, triggerSpeed := 0,
    counterSpeed := 1 / 2, R := 0, width := 2, height := 2 }

/-- Concrete state with a previous sample below the trigger level. -/
def sRiseW : State :=
  { dcKill := 0, dcFilterTemp := 0, previousSample := -1 / 2, triggerPhase := 0,
    triggerLimitPhase := 5, counter := 0, maxv := floatLowest, minv := floatMax,
    lastIsMax := false, index := 0, peaks := [0, 0, 0, 0], copy := [0, 0, 0, 0] }

/-- Concrete internal-trigger parameter set. -/
def pIntW : Parameters :=
  { trigger_type := kTriggerInternal, freeze := false, dc_kill := false, sync_draw := false,
    gain := 1, triggerLevel := 0, triggerLimit := 1, triggerSpeed := 1 / 2,
    counterSpeed := 1 / 2, R := 0, width := 1, height := 2 }

/-- Concrete state whose internal oscillator phase is about to wrap. -/
def sIntW : State :=
  { dcKill := 0, dcFilterTemp := 0, previousSample := 0, triggerPhase := 3 / 5,
    triggerLimitPhase := 0, counter := 0, maxv := floatLowest, minv := floatMax,
    lastIsMax := false, index := 0, peaks := [5, 7], copy := [5, 7] }

/-- Concrete free-running parameter set with display width one. -/
def pFreeW : Parameters :=
  { trigger_type := kTriggerFree, freeze := false, dc_kill := false, sync_draw := false,
    gain := 1, triggerLevel := 0, triggerLimit := 1, triggerSpeed := 0,
    counterSpeed := 1, R := 0, width := 1, height := 2 }

/-- Concrete state whose write index has reached the display width. -/
def sFreeW : State :=
  { dcKill := 0, dcFilterTemp := 0, previousSample := 0, triggerPhase := 0,
    triggerLimitPhase := 0, counter := 0, maxv := floatLowest, minv := floatMax,
    lastIsMax := false, index := 1, peaks := [0, 0], copy := [0, 0] }

/-- Concrete parameter set whose counterSpeed exceeds one pixel per
sample, with a wide display so no trigger interferes. -/
def pCXw : Parameters :=
  { trigger_type := kTriggerFree, freeze := false, dc_kill := false, sync_draw := false,
    gain := 1, triggerLevel := 0, triggerLimit := 1, triggerSpeed := 0,
    counterSpeed := 3, R := 0, width := 5, height := 2 }

/-- Concrete state with a half-pixel fractional counter. -/
def sCXw : State :=
  { dcKill := 0, dcFilterTemp := 0, previousSample := 0, triggerPhase := 0,
    triggerLimitPhase := 0, counter := 1 / 2, maxv := floatLowest, minv := floatMax,
    lastIsMax := false, index := 0, peaks := [0, 0, 0, 0, 0, 0, 0, 0, 0, 0],
    copy := [0, 0, 0, 0, 0, 0, 0, 0, 0, 0] }

/-- Concrete parameter set with the DC filter coefficient of a 48 kHz
sample rate. -/
def pDCw : Parameters :=
  { trigger_type := kTriggerFree, freeze := false, dc_kill := true, sync_draw := false,
    gain := 1, triggerLevel := 0, triggerLimit := 1, triggerSpeed := 0,
    counterSpeed := 1, R := 1 - 250 / 48000, width := 1, height := 2 }

/-- Concrete state with a nonzero initial DC filter charge. -/
def sDCw : State :=
  { dcKill := 7, dcFilterTemp := 3, previousSample := 0, triggerPhase := 0,
    triggerLimitPhase := 0, counter := 0, maxv := floatLowest, minv := floatMax,
    lastIsMax := false, index := 0, peaks := [0, 0], copy := [0, 0] }

/-- Concrete frozen parameter set. -/
def pFrzW : Parameters :=
  { trigger_type := kTriggerRising, freeze := true, dc_kill := true, sync_draw := false,
    gain := 1, triggerLevel := 0, triggerLimit := 1, triggerSpeed := 0,
    counterSpeed := 1, R := 0, width := 2, height := 2 }

/-- Number of accepted pixel-column writes recorded in a run's
per-sample flags. -/
def countWrites (outs : List (Bool × Bool)) : ℕ :=
  (outs.filter fun o => o.2).length

end WaveformDisplay


/-- Write the entries of src into dst starting at position start, one
std::move-style element copy at a time; a write whose destination index
falls outside dst is dropped (the in-bounds claims below are proved
under explicit bounds hypotheses). -/
def moveSlice (dst : List ℚ) (start : ℕ) (src : List ℚ) : List ℚ :=
  match src with
  | [] => dst
  | x :: xs => moveSlice (dst.set start x) (start + 1) xs

/-- Spectrum-mode accumulation branch of Oscilloscope::pullData: if the
incoming block fills the FFT accumulator, move exactly the samples
needed to complete it, publish the completed accumulator (the input of
the FFT pass), move the leftover samples to the start of the
accumulator and set the fill position to the leftover count; otherwise
move the whole block in at the fill position and advance it by the
block length with no FFT pass.  Returns the new accumulator, the new
fill position and the published FFT input if any. -/
def spectrumAccumStep (fftSize : ℕ) (fft_data : List ℚ) (pos : ℕ) (block : List ℚ) :
    List ℚ × ℕ × Option (List ℚ) :=
  let sz := block.length
  if fftSize ≤ pos + sz then
    let mv := fftSize - pos
    let leftovers := sz - mv
    let filled := moveSlice fft_data pos (block.take mv)
    (moveSlice filled 0 (block.drop mv), leftovers, some filled)
  else
    (moveSlice fft_data pos block, pos + sz, none)

/-- Accumulator indices written by the two std::move calls of the
spectrum branch of Oscilloscope::pullData: in the filling case the
indices pos..fftSize-1 of the completing move followed by the indices
0..leftovers-1 of the leftover carry, otherwise pos..pos+sz-1. -/
def spectrumWriteIndices (fftSize pos sz : ℕ) : List ℕ :=
  if fftSize ≤ pos + sz then
    List.range' pos (fftSize - pos) ++ List.range (sz - (fftSize - pos))
  else
    List.range' pos sz

/-- Per-bin loop of Oscilloscope::calculateSpectrumData.  The windowed
magnitude-only FFT itself is floating-point and is abstracted by the
bin magnitude function mag and the decibel conversion toDb
(juce::Decibels::gainToDecibels); the loop sets every bin whose center
frequency falls outside [lowFreq, highFreq] to dbMin and converts every
in-range bin to decibels minus the FFT-length normalization term,
clamped to [dbMin, dbMax]. -/
def calculateSpectrumData (samplerate : ℚ) (fftSize : ℕ)
    (lowFreq highFreq dbMin dbMax : ℚ) (toDb : ℚ → ℚ) (mag : ℕ → ℚ) : List ℚ :=
  (List.range (fftSize / 2)).map fun (i : ℕ) =>
    let hz := samplerate / (fftSize : ℚ) * (i : ℚ)
    if hz < lowFreq ∨ highFreq < hz then dbMin
    else jlimit dbMin dbMax (toDb (mag i) - toDb (fftSize : ℚ))

/-- Dirty-flag parameter store: a parameter value plus the
params_changed flag, both guarded by one lock in the source. -/
structure ParamStore (α : Type) where
  params : α
  params_changed : Bool
  deriving DecidableEq, Repr

/-- Oscilloscope::WaveformParameters::getParamsIfDirty and its spectrum
twin: if the dirty flag is set, clear it and return the parameter
snapshot; otherwise return nothing and leave the store unchanged. -/
def getParamsIfDirty {α : Type} (st : ParamStore α) : Option α × ParamStore α :=
  if st.params_changed then
    (some st.params, { params := st.params, params_changed := false })
  else
    (none, st)

/-- Parameter setter of the UI update lambdas: apply an edit to one
field and set the dirty flag. -/
def updateParameter {α : Type} (st : ParamStore α) (f : α → α) : ParamStore α :=
  { params := f st.params, params_changed := true }

end Oscilloscope

namespace Oscilloscope.WaveformDisplay

open TriggerType

/-- Fields of the runtime state that the pixel-boundary block leaves
untouched. -/
theorem boundaryStep_preserves (p : Parameters) (s : State) :
    (boundaryStep p s).1.copy = s.copy ∧
    (boundaryStep p s).1.triggerLimitPhase = s.triggerLimitPhase ∧
    (boundaryStep p s).1.dcKill = s.dcKill ∧
    (boundaryStep p s).1.dcFilterTemp = s.dcFilterTemp ∧
    (boundaryStep p s).1.triggerPhase = s.triggerPhase := by
  unfold boundaryStep
  by_cases h : (1 : ℚ) ≤ s.counter + p.counterSpeed
  · by_cases h2 : s.index < p.width <;> simp [h, h2]
  · simp [h]

/-- Pixel-written flag of the boundary block: a column is written
exactly when the counter reaches 1.0 while the index is in range. -/
theorem boundaryStep_wrote (p : Parameters) (s : State) :
    (boundaryStep p s).2 =
      (decide ((1 : ℚ) ≤ s.counter + p.counterSpeed) && decide (s.index < p.width)) := by
  unfold boundaryStep
  by_cases h : (1 : ℚ) ≤ s.counter + p.counterSpeed
  · by_cases h2 : s.index < p.width <;> simp [h, h2]
  · simp [h]

/-- Index evolution of the boundary block: the write index advances by
one exactly when a column is written. -/
theorem boundaryStep_index (p : Parameters) (s : State) :
    (boundaryStep p s).1.index = s.index + (if (boundaryStep p s).2 then 1 else 0) := by
  unfold boundaryStep
  by_cases h : (1 : ℚ) ≤ s.counter + p.counterSpeed
  · by_cases h2 : s.index < p.width <;> simp [h, h2]
  · simp [h]

/-- Index bound preservation of the boundary block. -/
theorem boundaryStep_index_le (p : Parameters) (s : State) (hs : s.index ≤ p.width) :
    (boundaryStep p s).1.index ≤ p.width := by
  rw [boundaryStep_index, boundaryStep_wrote]
  by_cases h : (1 : ℚ) ≤ s.counter + p.counterSpeed <;>
    by_cases h2 : s.index < p.width <;> simp [h, h2] <;> omega

/-- Accepted-trigger flag returned by processSample. -/
theorem processSample_acc (p : Parameters) (s : State) (f : ℚ) :
    (processSample p s f).2.1 = acceptedTrigger p s (gainedSample p s f) := rfl

/-- Pixel-written flag returned by processSample, in terms of the
intermediate state handed to the boundary block. -/
theorem processSample_wrote (p : Parameters) (s : State) (f : ℚ) :
    (processSample p s f).2.2 =
      (boundaryStep p (extremaUpdate (gainedSample p s f)
        (if acceptedTrigger p s (gainedSample p s f) then
          afterTrigger p
            { s with dcKill := dcUpdate p s f, dcFilterTemp := f,
                     triggerPhase := nextPhase p s,
                     triggerLimitPhase := s.triggerLimitPhase + 1 }
         else
          { s with dcKill := dcUpdate p s f, dcFilterTemp := f,
                   triggerPhase := nextPhase p s,
                   triggerLimitPhase := s.triggerLimitPhase + 1 }))).2 := rfl

/-- Retrigger-lockout counter after one sample: reset to zero by an
accepted trigger, incremented by one otherwise. -/
theorem processSample_tlp (p : Parameters) (s : State) (f : ℚ) :
    (processSample p s f).1.triggerLimitPhase =
      if (processSample p s f).2.1 then 0 else s.triggerLimitPhase + 1 := by
  rw [processSample_acc]
  unfold processSample
  by_cases h : acceptedTrigger p s (gainedSample p s f) <;>
    simp [h, extremaUpdate, afterTrigger, (boundaryStep_preserves _ _).2.1]

/-- DC filter state after one sample, independent of the trigger and
decimation logic. -/
theorem processSample_dc (p : Parameters) (s : State) (f : ℚ) :
    (processSample p s f).1.dcKill = dcUpdate p s f ∧
    (processSample p s f).1.dcFilterTemp = f := by
  unfold processSample
  by_cases h : acceptedTrigger p s (gainedSample p s f) <;>
    simp [h, extremaUpdate, afterTrigger, (boundaryStep_preserves _ _).2.2.1,
      (boundaryStep_preserves _ _).2.2.2.1]

/-- Write-index evolution over one sample: reset to zero by an accepted
trigger, then advanced by one exactly when a pixel column is written. -/
theorem processSample_index (p : Parameters) (s : State) (f : ℚ) :
    (processSample p s f).1.index =
      (if (processSample p s f).2.1 then 0 else s.index) +
        (if (processSample p s f).2.2 then 1 else 0) := by
  rw [processSample_acc]
  unfold processSample
  by_cases h : acceptedTrigger p s (gainedSample p s f) <;>
    simp [h, boundaryStep_index, extremaUpdate, afterTrigger]

/-- Index bound preservation over one sample. -/
theorem processSample_index_le (p : Parameters) (s : State) (f : ℚ)
    (hs : s.index ≤ p.width) : (processSample p s f).1.index ≤ p.width := by
  unfold processSample
  by_cases h : acceptedTrigger p s (gainedSample p s f) <;>
    refine boundaryStep_index_le _ _ ?_ <;> simp [h, extremaUpdate, afterTrigger, hs]

/-- After an accepted trigger the write index is in range even with no
assumption on the incoming state. -/
theorem processSample_index_le_of_acc (p : Parameters) (s : State) (f : ℚ)
    (hacc : (processSample p s f).2.1 = true) :
    (processSample p s f).1.index ≤ p.width := by
  rw [processSample_index, hacc]
  have hw := processSample_wrote p s f
  rw [processSample_acc] at hacc
  rw [boundaryStep_wrote] at hw
  simp only [hacc, if_true, extremaUpdate, afterTrigger] at hw
  by_cases h2 : (processSample p s f).2.2 = true
  · have h3 : 0 < p.width := by
      have h4 := (h2.symm.trans hw).symm
      rw [Bool.and_eq_true] at h4
      exact of_decide_eq_true h4.2
    simp [h2]
    omega
  · rw [Bool.not_eq_true] at h2
    simp [h2]

/-- Sync-copy evolution over one sample: replaced by the zero-tailed
decimation buffer on an accepted trigger, untouched otherwise. -/
theorem processSample_copy (p : Parameters) (s : State) (f : ℚ) :
    (processSample p s f).1.copy =
      if (processSample p s f).2.1 then zeroTail (centerY p) (2 * s.index) s.peaks
      else s.copy := by
  rw [processSample_acc]
  unfold processSample
  by_cases h : acceptedTrigger p s (gainedSample p s f) <;>
    simp [h, extremaUpdate, afterTrigger, (boundaryStep_preserves _ _).1]

/-- Unfolding equation of processList on a nonempty block. -/
theorem processList_cons (p : Parameters) (s : State) (f : ℚ) (fs : List ℚ) :
    processList p s (f :: fs) =
      ((processList p (processSample p s f).1 fs).1,
        ((processSample p s f).2.1, (processSample p s f).2.2) ::
          (processList p (processSample p s f).1 fs).2) := rfl

/-- Lockout-counter bound over a run: starting from a nonnegative
lockout counter, after n samples the counter is nonnegative and has
grown by at most n. -/
theorem processList_tlp_le (p : Parameters) :
    ∀ (xs : List ℚ) (s : State), 0 ≤ s.triggerLimitPhase →
      0 ≤ (processList p s xs).1.triggerLimitPhase ∧
      (processList p s xs).1.triggerLimitPhase ≤ s.triggerLimitPhase + xs.length := by
  intro xs
  induction xs with
  | nil => intro s hs; simpa [processList] using hs
  | cons f fs ih =>
    intro s hs
    rw [processList_cons]
    have hstep := processSample_tlp p s f
    have h1 : 0 ≤ (processSample p s f).1.triggerLimitPhase := by
      rw [hstep]; split <;> omega
    have h2 : (processSample p s f).1.triggerLimitPhase ≤ s.triggerLimitPhase + 1 := by
      rw [hstep]; split <;> omega
    have := ih (processSample p s f).1 h1
    constructor
    · exact this.1
    · simp only [List.length_cons]
      omega

/-- Index bound preservation over a run. -/
theorem processList_index_le (p : Parameters) :
    ∀ (xs : List ℚ) (s : State), s.index ≤ p.width →
      (processList p s xs).1.index ≤ p.width := by
  intro xs
  induction xs with
  | nil => intro s hs; simpa [processList] using hs
  | cons f fs ih =>
    intro s hs
    rw [processList_cons]
    exact ih _ (processSample_index_le p s f hs)

/-- Index evolution over a run with no accepted trigger: the write
index grows by exactly the number of pixel-column writes. -/
theorem processList_index_noacc (p : Parameters) :
    ∀ (xs : List ℚ) (s : State),
      (∀ o ∈ (processList p s xs).2, o.1 = false) →
      (processList p s xs).1.index = s.index + countWrites (processList p s xs).2 := by
  intro xs
  induction xs with
  | nil => intro s _; simp [processList, countWrites]
  | cons f fs ih =>
    intro s hno
    rw [processList_cons] at hno ⊢
    simp only [List.mem_cons] at hno
    have hacc : (processSample p s f).2.1 = false := hno _ (Or.inl rfl)
    have hrest : ∀ o ∈ (processList p (processSample p s f).1 fs).2, o.1 = false :=
      fun o ho => hno o (Or.inr ho)
    have hidx := processSample_index p s f
    rw [hacc] at hidx
    simp only [if_false, Bool.false_eq_true] at hidx
    have := ih (processSample p s f).1 hrest
    simp only [countWrites, List.filter_cons]
    simp only [countWrites] at this
    by_cases hw : (processSample p s f).2.2 = true
    · simp only [hw] at hidx ⊢
      simp at hidx ⊢
      omega
    · rw [Bool.not_eq_true] at hw
      simp only [hw] at hidx ⊢
      simp at hidx ⊢
      omega

/-- An accepted trigger always comes from a fired raw trigger. -/
theorem fires_of_acceptedTrigger (p : Parameters) (s : State) (v : ℚ)
    (h : acceptedTrigger p s v = true) : fires p s v = true := by
  simp only [acceptedTrigger] at h
  split at h
  · exact absurd h (by simp)
  · exact h

/-- An accepted edge trigger implies the lockout has expired: at least
triggerLimit samples have passed since the previous accepted trigger. -/
theorem lockout_of_acceptedTrigger (p : Parameters) (s : State) (v : ℚ)
    (h : acceptedTrigger p s v = true)
    (hf : p.trigger_type ≠ TriggerType.kTriggerFree)
    (hi : p.trigger_type ≠ TriggerType.kTriggerInternal) :
    p.triggerLimit ≤ s.triggerLimitPhase + 1 := by
  have ht := fires_of_acceptedTrigger p s v h
  simp only [acceptedTrigger] at h
  split at h
  · exact absurd h (by simp)
  · rename_i hcond
    by_contra hlt
    exact hcond ⟨ht, lt_of_not_le hlt, hf, hi⟩

/-- Free and Internal triggers are never suppressed by the lockout. -/
theorem acceptedTrigger_free_internal (p : Parameters) (s : State) (v : ℚ)
    (h : p.trigger_type = TriggerType.kTriggerFree ∨
         p.trigger_type = TriggerType.kTriggerInternal) :
    acceptedTrigger p s v = fires p s v := by
  simp only [acceptedTrigger]
  rcases h with h | h <;> rw [h] <;> simp

end Oscilloscope.WaveformDisplay
namespace Oscilloscope

/-- Reading back the element just written by List.set. -/
theorem getD_set_self {α : Type} (l : List α) (n : ℕ) (a d : α) (h : n < l.length) :
    (l.set n a).getD n d = a := by
  rw [List.getD_eq_getElem?_getD, List.getElem?_set_self h]
  rfl

/-- Reading any other position after a List.set. -/
theorem getD_set_other {α : Type} (l : List α) {n m : ℕ} (a d : α) (h : n ≠ m) :
    (l.set n a).getD m d = l.getD m d := by
  rw [List.getD_eq_getElem?_getD, List.getElem?_set_ne h, ← List.getD_eq_getElem?_getD]

/-- Both bounds of jlimit hold whenever the interval is nonempty. -/
theorem jlimit_mem (lo hi x : ℚ) (h : lo ≤ hi) :
    lo ≤ jlimit lo hi x ∧ jlimit lo hi x ≤ hi := by
  unfold jlimit
  split_ifs with h1 h2 <;> constructor <;> linarith

/-- moveSlice never changes the buffer length. -/
theorem moveSlice_length (src : List ℚ) :
    ∀ (dst : List ℚ) (start : ℕ), (moveSlice dst start src).length = dst.length := by
  induction src with
  | nil => intro dst start; rfl
  | cons x xs ih =>
    intro dst start
    show (moveSlice (dst.set start x) (start + 1) xs).length = dst.length
    rw [ih, List.length_set]

/-- Positions before the written slice are untouched by moveSlice. -/
theorem moveSlice_getD_lt (src : List ℚ) :
    ∀ (dst : List ℚ) (start j : ℕ), j < start →
      (moveSlice dst start src).getD j 0 = dst.getD j 0 := by
  induction src with
  | nil => intro dst start j _; rfl
  | cons x xs ih =>
    intro dst start j hj
    show (moveSlice (dst.set start x) (start + 1) xs).getD j 0 = dst.getD j 0
    rw [ih _ _ _ (Nat.lt_succ_of_lt hj), getD_set_other _ _ _ (Nat.ne_of_gt hj)]

/-- Positions past the written slice are untouched by moveSlice. -/
theorem moveSlice_getD_ge (src : List ℚ) :
    ∀ (dst : List ℚ) (start j : ℕ), start + src.length ≤ j →
      (moveSlice dst start src).getD j 0 = dst.getD j 0 := by
  induction src with
  | nil => intro dst start j _; rfl
  | cons x xs ih =>
    intro dst start j hj
    simp only [List.length_cons] at hj
    show (moveSlice (dst.set start x) (start + 1) xs).getD j 0 = dst.getD j 0
    rw [ih _ _ _ (by omega), getD_set_other _ _ _ (by omega)]

/-- Positions inside the written slice hold the source data after
moveSlice, provided the slice fits inside the buffer. -/
theorem moveSlice_getD_mid (src : List ℚ) :
    ∀ (dst : List ℚ) (start i : ℕ), i < src.length → start + src.length ≤ dst.length →
      (moveSlice dst start src).getD (start + i) 0 = src.getD i 0 := by
  induction src with
  | nil => intro dst start i hi; exact absurd hi (by simp)
  | cons x xs ih =>
    intro dst start i hi hfit
    simp only [List.length_cons] at hfit
    cases i with
    | zero =>
      have hkey : (moveSlice (dst.set start x) (start + 1) xs).getD start 0 = x := by
        rw [moveSlice_getD_lt _ _ _ _ (by omega : start < start + 1)]
        exact getD_set_self _ _ _ _ (by omega)
      show (moveSlice (dst.set start x) (start + 1) xs).getD (start + 0) 0 = x
      simpa using hkey
    | succ i =>
      show (moveSlice (dst.set start x) (start + 1) xs).getD (start + (i + 1)) 0 =
        (x :: xs).getD (i + 1) 0
      have : start + (i + 1) = (start + 1) + i := by omega
      rw [this, ih _ _ _ (by simpa using hi) (by rw [List.length_set]; omega)]
      rfl

end Oscilloscope

namespace Oscilloscope.WaveformDisplay

/-- zeroTail never changes the buffer length. -/
theorem zeroTail_length (c : ℚ) :
    ∀ (l : List ℚ) (start : ℕ), (zeroTail c start l).length = l.length := by
  intro l
  induction l with
  | nil => intro start; cases start <;> rfl
  | cons y ys ih => intro start; cases start <;> simp [zeroTail, ih]

/-- Pointwise description of zeroTail: positions at or past start hold
the fill constant, earlier positions are untouched. -/
theorem zeroTail_getD (c : ℚ) :
    ∀ (l : List ℚ) (start k : ℕ), k < l.length →
      (zeroTail c start l).getD k 0 = if start ≤ k then c else l.getD k 0 := by
  intro l
  induction l with
  | nil => intro start k hk; exact absurd hk (by simp)
  | cons y ys ih =>
    intro start k hk
    cases start with
    | zero =>
      cases k with
      | zero => simp [zeroTail]
      | succ k =>
        simp only [zeroTail, List.getD_cons_succ]
        rw [ih 0 k (by simpa using hk)]
        simp
    | succ st =>
      cases k with
      | zero => simp [zeroTail]
      | succ k =>
        simp only [zeroTail, List.getD_cons_succ]
        rw [ih st k (by simpa using hk)]
        simp [Nat.succ_le_succ_iff]

end Oscilloscope.WaveformDisplay

namespace Oscilloscope.WaveformDisplay

/-- C8: when the freeze parameter is set, WaveformDisplay::process
returns without processing, leaving every component of the waveform
engine state unchanged for every input block. -/
theorem freeze_no_state_change (p : Parameters) (s : State) (data : List ℚ)
    (h : p.freeze = true) : process p s data = s := by
  simp [process, h]

/-- Witness instantiating the freeze theorem on a concrete frozen
parameter set, state and block. -/
theorem freeze_no_state_change_witness :
    pFrzW.freeze = true ∧ process pFrzW sRiseW [1, -1 / 2, 3] = sRiseW :=
  ⟨rfl, freeze_no_state_change pFrzW sRiseW [1, -1 / 2, 3] rfl⟩

end Oscilloscope.WaveformDisplay

namespace Oscilloscope

/-- C9: getParamsIfDirty returns the snapshot and clears the dirty flag
when set, returns nothing and leaves the store unchanged when clear,
and after a single edit exactly one call returns a snapshot carrying
the edit while a further call without intervening edits returns
nothing. -/
theorem params_dirty_snapshot_exactly_once :
    (∀ (α : Type) (st : ParamStore α), st.params_changed = true →
        getParamsIfDirty st =
          (some st.params, { params := st.params, params_changed := false })) ∧
    (∀ (α : Type) (st : ParamStore α), st.params_changed = false →
        getParamsIfDirty st = (none, st)) ∧
    (∀ (α : Type) (st : ParamStore α) (f : α → α),
        (getParamsIfDirty (updateParameter st f)).1 = some (f st.params) ∧
        (getParamsIfDirty (getParamsIfDirty (updateParameter st f)).2).1 = none) := by
  refine ⟨?_, ?_, ?_⟩
  · intro α st h
    simp [getParamsIfDirty, h]
  · intro α st h
    simp [getParamsIfDirty, h]
  · intro α st f
    simp [getParamsIfDirty, updateParameter]

/-- Witness running the dirty-flag snapshot theorem on concrete
natural-number stores. -/
theorem params_dirty_snapshot_exactly_once_witness :
    getParamsIfDirty (⟨3, true⟩ : ParamStore ℕ) = (some 3, ⟨3, false⟩) ∧
    getParamsIfDirty (⟨4, false⟩ : ParamStore ℕ) = (none, ⟨4, false⟩) ∧
    (getParamsIfDirty (updateParameter (⟨5, false⟩ : ParamStore ℕ) (fun n => n + 1))).1 =
      some 6 ∧
    (getParamsIfDirty
        (getParamsIfDirty (updateParameter (⟨5, false⟩ : ParamStore ℕ) (fun n => n + 1))).2).1 =
      none :=
  ⟨params_dirty_snapshot_exactly_once.1 ℕ ⟨3, true⟩ rfl,
   params_dirty_snapshot_exactly_once.2.1 ℕ ⟨4, false⟩ rfl,
   (params_dirty_snapshot_exactly_once.2.2 ℕ ⟨5, false⟩ (fun n => n + 1)).1,
   (params_dirty_snapshot_exactly_once.2.2 ℕ ⟨5, false⟩ (fun n => n + 1)).2⟩

/-- C10: for blocks no longer than the FFT size arriving at a fill
position below the FFT size, every accumulator write lands strictly
below the FFT size and the new fill position stays below the FFT size;
for longer blocks this fails, as the leftover carry can write at or
past the accumulator length. -/
theorem spectrum_accumulator_in_bounds :
    (∀ (fftSize pos sz : ℕ), pos < fftSize → sz ≤ fftSize →
        (∀ i ∈ spectrumWriteIndices fftSize pos sz, i < fftSize) ∧
        (∀ (acc block : List ℚ), block.length = sz →
            (spectrumAccumStep fftSize acc pos block).2.1 < fftSize)) ∧
    (∀ fftSize : ℕ, 0 < fftSize → ∃ pos sz, pos < fftSize ∧ fftSize < sz ∧
        ∃ i ∈ spectrumWriteIndices fftSize pos sz, fftSize ≤ i) := by
  constructor
  · intro fftSize pos sz hpos hsz
    constructor
    · intro i hi
      unfold spectrumWriteIndices at hi
      split at hi
      · rcases List.mem_append.1 hi with h | h
        · rcases List.mem_range'_1.1 h with ⟨h1, h2⟩
          omega
        · have := List.mem_range.1 h
          omega
      · rcases List.mem_range'_1.1 hi with ⟨h1, h2⟩
        omega
    · intro acc block hb
      unfold spectrumAccumStep
      by_cases hfill : fftSize ≤ pos + block.length
      · simp only [hfill, if_true]
        omega
      · simp only [hfill, if_false]
        omega
  · intro fftSize h1
    refine ⟨fftSize - 1, fftSize + 2, by omega, by omega, fftSize, ?_, le_refl _⟩
    unfold spectrumWriteIndices
    rw [if_pos (by omega)]
    exact List.mem_append.2 (Or.inr (List.mem_range.2 (by omega)))

/-- Witness evaluating the in-bounds theorem at FFT size 4, fill
position 2 and block length 3, and its failure direction at FFT size 4. -/
theorem spectrum_accumulator_in_bounds_witness :
    ((∀ i ∈ spectrumWriteIndices 4 2 3, i < 4) ∧
      (∀ (acc block : List ℚ), block.length = 3 →
          (spectrumAccumStep 4 acc 2 block).2.1 < 4)) ∧
    (∃ pos sz, pos < 4 ∧ 4 < sz ∧ ∃ i ∈ spectrumWriteIndices 4 pos sz, 4 ≤ i) :=
  ⟨spectrum_accumulator_in_bounds.1 4 2 3 (by omega) (by omega),
   spectrum_accumulator_in_bounds.2 4 (by omega)⟩

end Oscilloscope

namespace Oscilloscope

/-- C5: after each FFT pass, every bin whose center frequency lies
below lowFreq or above highFreq is exactly dbMin, and every in-range
bin is the decibel conversion of its magnitude minus the FFT-length
normalization term, clamped so it always lies within [dbMin, dbMax]. -/
theorem spectrum_bin_floor_and_clamp (samplerate : ℚ) (fftSize : ℕ)
    (lowFreq highFreq dbMin dbMax : ℚ) (toDb : ℚ → ℚ) (mag : ℕ → ℚ)
    (hdb : dbMin ≤ dbMax) (i : ℕ) (hi : i < fftSize / 2) :
    (calculateSpectrumData samplerate fftSize lowFreq highFreq dbMin dbMax toDb mag).getD i 0 =
      (if samplerate / (fftSize : ℚ) * (i : ℚ) < lowFreq ∨
          highFreq < samplerate / (fftSize : ℚ) * (i : ℚ) then dbMin
       else jlimit dbMin dbMax (toDb (mag i) - toDb (fftSize : ℚ))) ∧
    dbMin ≤
      (calculateSpectrumData samplerate fftSize lowFreq highFreq dbMin dbMax toDb mag).getD i 0 ∧
    (calculateSpectrumData samplerate fftSize lowFreq highFreq dbMin dbMax toDb mag).getD i 0 ≤
      dbMax := by
  have hval :
      (calculateSpectrumData samplerate fftSize lowFreq highFreq dbMin dbMax toDb mag).getD i 0 =
        (if samplerate / (fftSize : ℚ) * (i : ℚ) < lowFreq ∨
            highFreq < samplerate / (fftSize : ℚ) * (i : ℚ) then dbMin
         else jlimit dbMin dbMax (toDb (mag i) - toDb (fftSize : ℚ))) := by
    unfold calculateSpectrumData
    rw [List.getD_eq_getElem?_getD, List.getElem?_map, List.getElem?_range hi]
    rfl
  refine ⟨hval, ?_, ?_⟩
  · rw [hval]
    split
    · exact le_refl dbMin
    · exact (jlimit_mem _ _ _ hdb).1
  · rw [hval]
    split
    · exact hdb
    · exact (jlimit_mem _ _ _ hdb).2

/-- Witness evaluating the bin theorem at a 48 kHz rate with FFT size
8: bin 0 (0 Hz, below a 100 Hz low bound) is floored to the -100 dB
minimum, and bin 1 (6 kHz, in range) carries the clamped converted
value. -/
theorem spectrum_bin_floor_and_clamp_witness :
    (calculateSpectrumData 48000 8 100 20000 (-100) 0 id (fun _ => 1)).getD 0 0 = -100 ∧
    (calculateSpectrumData 48000 8 100 20000 (-100) 0 id (fun _ => 1)).getD 1 0 = -7 := by
  have h0 :=
    spectrum_bin_floor_and_clamp 48000 8 100 20000 (-100) 0 id (fun _ => 1) (by norm_num) 0
      (by norm_num)
  have h1 :=
    spectrum_bin_floor_and_clamp 48000 8 100 20000 (-100) 0 id (fun _ => 1) (by norm_num) 1
      (by norm_num)
  constructor
  · rw [h0.1]
    norm_num
  · rw [h1.1]
    norm_num [jlimit]

/-- C7: a spectrum-mode block that does not fill the accumulator is
appended whole with the fill position advanced by the block length and
no FFT pass; a block that fills it contributes exactly the samples
needed to complete the accumulator, the completed accumulator is
published to one FFT pass, and the leftover samples are carried to the
start of the next cycle with the fill position set to the leftover
count. -/
theorem spectrum_accumulator_dispatch (fftSize : ℕ) (acc : List ℚ) (pos : ℕ)
    (block : List ℚ) (hlen : acc.length = fftSize) (hpos : pos < fftSize) :
    (pos + block.length < fftSize →
        (spectrumAccumStep fftSize acc pos block).2.2 = none ∧
        (spectrumAccumStep fftSize acc pos block).2.1 = pos + block.length ∧
        (∀ i, i < block.length →
            (spectrumAccumStep fftSize acc pos block).1.getD (pos + i) 0 = block.getD i 0) ∧
        (∀ j, j < pos →
            (spectrumAccumStep fftSize acc pos block).1.getD j 0 = acc.getD j 0)) ∧
    (fftSize ≤ pos + block.length → block.length ≤ fftSize →
        (spectrumAccumStep fftSize acc pos block).2.2 =
          some (moveSlice acc pos (block.take (fftSize - pos))) ∧
        (∀ i, i < fftSize - pos →
            (moveSlice acc pos (block.take (fftSize - pos))).getD (pos + i) 0 =
              block.getD i 0) ∧
        (∀ j, j < pos →
            (moveSlice acc pos (block.take (fftSize - pos))).getD j 0 = acc.getD j 0) ∧
        (spectrumAccumStep fftSize acc pos block).2.1 = block.length - (fftSize - pos) ∧
        (∀ i, i < block.length - (fftSize - pos) →
            (spectrumAccumStep fftSize acc pos block).1.getD i 0 =
              block.getD ((fftSize - pos) + i) 0)) := by
  constructor
  · intro hsmall
    unfold spectrumAccumStep
    rw [if_neg (by omega)]
    refine ⟨rfl, rfl, ?_, ?_⟩
    · intro i hi
      exact moveSlice_getD_mid block acc pos i hi (by omega)
    · intro j hj
      exact moveSlice_getD_lt block acc pos j hj
  · intro hfill hsz
    have htake : (block.take (fftSize - pos)).length = fftSize - pos := by
      rw [List.length_take]
      omega
    unfold spectrumAccumStep
    rw [if_pos (by omega)]
    refine ⟨rfl, ?_, ?_, rfl, ?_⟩
    · intro i hi
      rw [moveSlice_getD_mid (block.take (fftSize - pos)) acc pos i (by omega) (by omega)]
      rw [List.getD_eq_getElem?_getD, List.getElem?_take, if_pos hi,
        ← List.getD_eq_getElem?_getD]
    · intro j hj
      exact moveSlice_getD_lt _ acc pos j hj
    · intro i hi
      have hdlen : (block.drop (fftSize - pos)).length = block.length - (fftSize - pos) := by
        rw [List.length_drop]
      have hflen : (moveSlice acc pos (block.take (fftSize - pos))).length = fftSize := by
        rw [moveSlice_length, hlen]
      have hkey := moveSlice_getD_mid (block.drop (fftSize - pos))
        (moveSlice acc pos (block.take (fftSize - pos))) 0 i (by omega) (by omega)
      have hz : (0 : ℕ) + i = i := Nat.zero_add i
      rw [hz] at hkey
      rw [hkey, List.getD_eq_getElem?_getD, List.getElem?_drop, ← List.getD_eq_getElem?_getD]

/-- Witness running the dispatch theorem in the filling case: FFT size
4, fill position 2, block of 3 samples; the published accumulator is
completed with the first two samples and the third is carried to the
front with fill position 1. -/
theorem spectrum_accumulator_dispatch_witness :
    (spectrumAccumStep 4 [1, 2, 3, 4] 2 [7, 8, 9]).2.2 = some [1, 2, 7, 8] ∧
    (spectrumAccumStep 4 [1, 2, 3, 4] 2 [7, 8, 9]).2.1 = 1 := by
  have h := (spectrum_accumulator_dispatch 4 [1, 2, 3, 4] 2 [7, 8, 9] rfl (by norm_num)).2
    (by norm_num) (by norm_num)
  constructor
  · rw [h.1]
    norm_num [moveSlice]
  · rw [h.2.2.2.1]
    norm_num

end Oscilloscope

namespace Oscilloscope.WaveformDisplay

/-- C2 (amended): for every processed sample the fractional pixel
counter increases by counterSpeed; whenever it reaches or exceeds 1.0,
the current column pair is written into the decimation buffer in the
order determined by the last-touched extremum, the write index advances
only while below the display width, the running extrema reset, and
exactly 1.0 is subtracted from the counter, which equals the counter's
integer part (so the fractional remainder carries over) whenever the
counter stays below 2, in particular when counterSpeed is at most 1. -/
theorem pixel_boundary_behavior (p : Parameters) (s : State)
    (hlen : s.peaks.length = 2 * p.width) :
    (s.counter + p.counterSpeed < 1 →
        boundaryStep p s = ({ s with counter := s.counter + p.counterSpeed }, false)) ∧
    (1 ≤ s.counter + p.counterSpeed →
        (boundaryStep p s).1.counter = s.counter + p.counterSpeed - 1 ∧
        (boundaryStep p s).1.maxv = floatLowest ∧
        (boundaryStep p s).1.minv = floatMax ∧
        (boundaryStep p s).2 = decide (s.index < p.width) ∧
        (s.index < p.width →
            (boundaryStep p s).1.index = s.index + 1 ∧
            (boundaryStep p s).1.peaks.getD (2 * s.index) 0 =
              (if s.lastIsMax then jmap s.minv (-1) 1 p.height 0
               else jmap s.maxv (-1) 1 p.height 0) ∧
            (boundaryStep p s).1.peaks.getD (2 * s.index + 1) 0 =
              (if s.lastIsMax then jmap s.maxv (-1) 1 p.height 0
               else jmap s.minv (-1) 1 p.height 0) ∧
            (∀ k, k ≠ 2 * s.index → k ≠ 2 * s.index + 1 →
                (boundaryStep p s).1.peaks.getD k 0 = s.peaks.getD k 0)) ∧
        (p.width ≤ s.index →
            (boundaryStep p s).1.index = s.index ∧
            (boundaryStep p s).1.peaks = s.peaks)) := by
  constructor
  · intro h
    simp only [boundaryStep]
    rw [if_neg (not_le.2 h)]
  · intro h
    simp only [boundaryStep]
    rw [if_pos h]
    refine ⟨rfl, rfl, rfl, rfl, ?_, ?_⟩
    · intro hidx
      rw [if_pos hidx]
      have h1 : 2 * s.index < s.peaks.length := by omega
      have h2 : 2 * s.index + 1 < s.peaks.length := by omega
      refine ⟨rfl, ?_, ?_, ?_⟩
      · rw [getD_set_other _ _ _ (by omega : 2 * s.index + 1 ≠ 2 * s.index)]
        exact getD_set_self _ _ _ _ h1
      · exact getD_set_self _ _ _ _ (by rw [List.length_set]; omega)
      · intro k hk1 hk2
        rw [getD_set_other _ _ _ (Ne.symm hk2), getD_set_other _ _ _ (Ne.symm hk1)]
    · intro hge
      rw [if_neg (not_lt.2 hge)]
      exact ⟨rfl, rfl⟩

/-- Witness running the amended boundary theorem on a firing boundary:
at counterSpeed 3 from counter 1/2 the counter reaches 7/2, a column
is written at index 0, the index advances and the stored counter is
7/2 minus 1. -/
theorem pixel_boundary_behavior_witness :
    (boundaryStep pCXw sCXw).1.counter = sCXw.counter + pCXw.counterSpeed - 1 ∧
    (boundaryStep pCXw sCXw).1.index = sCXw.index + 1 ∧
    (boundaryStep pCXw sCXw).1.maxv = floatLowest := by
  have h := (pixel_boundary_behavior pCXw sCXw (by norm_num [pCXw, sCXw])).2
    (by norm_num [pCXw, sCXw])
  exact ⟨h.1, (h.2.2.2.2.1 (by norm_num [pCXw, sCXw])).1, h.2.1⟩

/-- C2 counterexample: with counterSpeed 3 and fractional counter 1/2
the boundary fires with counter value 7/2, whose integer part is 3;
the code stores 5/2, which is neither the counter minus its integer
part nor below 1, so the fractional remainder does not carry over as
the claim states. -/
theorem pixel_counter_integer_part_counterexample :
    1 ≤ sCXw.counter + pCXw.counterSpeed ∧
    (processSample pCXw sCXw 0).1.counter = 5 / 2 ∧
    (processSample pCXw sCXw 0).1.counter ≠
      sCXw.counter + pCXw.counterSpeed - (⌊sCXw.counter + pCXw.counterSpeed⌋ : ℚ) ∧
    ¬(processSample pCXw sCXw 0).1.counter < 1 := by
  have hc : (processSample pCXw sCXw 0).1.counter = 5 / 2 := by
    norm_num [processSample, gainedSample, dcUpdate, snap, acceptedTrigger, fires,
      nextPhase, afterTrigger, extremaUpdate, boundaryStep, jlimit, jmap, centerY,
      floatLowest, floatMax, pCXw, sCXw]
  refine ⟨by norm_num [pCXw, sCXw], hc, ?_, by rw [hc]; norm_num⟩
  rw [hc]
  norm_num [pCXw, sCXw]

end Oscilloscope.WaveformDisplay

namespace Oscilloscope.WaveformDisplay

/-- C3: whenever a trigger is accepted, all pixel columns from the
current write index to the end of the decimation buffer are set to the
centerline (zero amplitude) value, the whole buffer is copied into the
frozen sync copy (still visible at the end of the sample, since later
stages never touch the copy), and the write index, fractional pixel
counter, running extrema and retrigger-lockout counter are reset. -/
theorem trigger_reset_zero_fill_and_sync_copy (p : Parameters) (s : State) (f : ℚ)
    (hlen : s.peaks.length = 2 * p.width)
    (hacc : (processSample p s f).2.1 = true) :
    (processSample p s f).1.copy = zeroTail (centerY p) (2 * s.index) s.peaks ∧
    (∀ k, k < 2 * p.width →
        (zeroTail (centerY p) (2 * s.index) s.peaks).getD k 0 =
          if 2 * s.index ≤ k then centerY p else s.peaks.getD k 0) ∧
    centerY p = p.height / 2 ∧
    (afterTrigger p s).peaks = zeroTail (centerY p) (2 * s.index) s.peaks ∧
    (afterTrigger p s).copy = zeroTail (centerY p) (2 * s.index) s.peaks ∧
    (afterTrigger p s).index = 0 ∧
    (afterTrigger p s).counter = 1 ∧
    (afterTrigger p s).maxv = floatLowest ∧
    (afterTrigger p s).minv = floatMax ∧
    (afterTrigger p s).triggerLimitPhase = 0 := by
  refine ⟨?_, ?_, ?_, rfl, rfl, rfl, rfl, rfl, rfl, rfl⟩
  · rw [processSample_copy, hacc, if_pos rfl]
  · intro k hk
    exact zeroTail_getD (centerY p) s.peaks (2 * s.index) k (by omega)
  · unfold centerY jmap
    ring

/-- Witness running the trigger-reset theorem on a concrete accepted
internal trigger: both entries of the two-point buffer are replaced by
the centerline value 1 in the sync copy. -/
theorem trigger_reset_zero_fill_and_sync_copy_witness :
    (processSample pIntW sIntW 0).1.copy = [1, 1] := by
  have h := trigger_reset_zero_fill_and_sync_copy pIntW sIntW 0
    (by norm_num [pIntW, sIntW])
    (by norm_num [processSample, acceptedTrigger, fires, gainedSample, dcUpdate, snap,
      jlimit, nextPhase, pIntW, sIntW])
  rw [h.1]
  norm_num [zeroTail, centerY, jmap, pIntW, sIntW]

end Oscilloscope.WaveformDisplay

namespace Oscilloscope.WaveformDisplay

/-- C1: with trigger mode Rising, a trigger is recorded only at samples
where the gained, clamped sample is at or above the level while the
previous sample was below it; two recorded triggers are never fewer
than triggerLimit samples apart; and for Free and Internal modes a
fired trigger is never suppressed by the retrigger lockout. -/
theorem rising_trigger_only_on_crossing_and_lockout :
    (∀ (p : Parameters) (s : State) (f : ℚ),
        p.trigger_type = TriggerType.kTriggerRising →
        (processSample p s f).2.1 = true →
        p.triggerLevel ≤ gainedSample p s f ∧ s.previousSample < p.triggerLevel) ∧
    (∀ (p : Parameters) (s : State) (x : ℚ) (xs : List ℚ) (y : ℚ),
        p.trigger_type = TriggerType.kTriggerRising →
        (processSample p s x).2.1 = true →
        (processSample p (processList p (processSample p s x).1 xs).1 y).2.1 = true →
        p.triggerLimit ≤ (xs.length : ℤ) + 1) ∧
    (∀ (p : Parameters) (s : State) (v : ℚ),
        p.trigger_type = TriggerType.kTriggerFree ∨
          p.trigger_type = TriggerType.kTriggerInternal →
        acceptedTrigger p s v = fires p s v) := by
  refine ⟨?_, ?_, ?_⟩
  · intro p s f hR hacc
    rw [processSample_acc] at hacc
    have ht := fires_of_acceptedTrigger p s _ hacc
    unfold fires at ht
    rw [hR] at ht
    simpa using ht
  · intro p s x xs y hR h1 h2
    have htlp1 : (processSample p s x).1.triggerLimitPhase = 0 := by
      rw [processSample_tlp, h1]
      simp
    have hrun := processList_tlp_le p xs (processSample p s x).1 (by rw [htlp1])
    rw [processSample_acc] at h2
    have hL := lockout_of_acceptedTrigger _ _ _ h2 (by rw [hR]; simp) (by rw [hR]; simp)
    rw [htlp1] at hrun
    omega
  · intro p s v h
    exact acceptedTrigger_free_internal p s v h

/-- Witness running the rising-edge theorem on a concrete run: the
trigger at the first sample sees level 0 with previous sample -1/2, a
second trigger one intermediate sample later respects the lockout
bound, and a concrete internal trigger is not suppressed. -/
theorem rising_trigger_only_on_crossing_and_lockout_witness :
    (pRiseW.triggerLevel ≤ gainedSample pRiseW sRiseW 1 ∧
      sRiseW.previousSample < pRiseW.triggerLevel) ∧
    pRiseW.triggerLimit ≤ (([-1] : List ℚ).length : ℤ) + 1 ∧
    acceptedTrigger pIntW sIntW 0 = fires pIntW sIntW 0 := by
  refine ⟨?_, ?_, ?_⟩
  · exact rising_trigger_only_on_crossing_and_lockout.1 pRiseW sRiseW 1 rfl
      (by norm_num [processSample, acceptedTrigger, fires, gainedSample, dcUpdate, snap,
        jlimit, pRiseW, sRiseW])
  · exact rising_trigger_only_on_crossing_and_lockout.2.1 pRiseW sRiseW 1 [-1] 1 rfl
      (by norm_num [processSample, acceptedTrigger, fires, gainedSample, dcUpdate, snap,
        jlimit, pRiseW, sRiseW])
      (by norm_num [processSample, processList, acceptedTrigger, fires, gainedSample,
        dcUpdate, snap, jlimit, nextPhase, afterTrigger, extremaUpdate, boundaryStep,
        jmap, centerY, zeroTail, floatLowest, floatMax, pRiseW, sRiseW])
  · exact rising_trigger_only_on_crossing_and_lockout.2.2 pIntW sIntW 0 (Or.inr rfl)

/-- C4: with trigger mode Free, a trigger fires exactly when the pixel
write index has reached the display width, and between two consecutive
triggers exactly width pixel-column writes are accepted. -/
theorem free_trigger_fires_at_full_buffer :
    (∀ (p : Parameters) (s : State) (f : ℚ),
        p.trigger_type = TriggerType.kTriggerFree →
        (processSample p s f).2.1 = decide (p.width ≤ s.index)) ∧
    (∀ (p : Parameters) (s : State) (x : ℚ) (xs : List ℚ) (y : ℚ),
        p.trigger_type = TriggerType.kTriggerFree →
        (processSample p s x).2.1 = true →
        (∀ o ∈ (processList p (processSample p s x).1 xs).2, o.1 = false) →
        (processSample p (processList p (processSample p s x).1 xs).1 y).2.1 = true →
        (if (processSample p s x).2.2 then 1 else 0) +
          countWrites (processList p (processSample p s x).1 xs).2 = p.width) := by
  constructor
  · intro p s f hF
    rw [processSample_acc, acceptedTrigger_free_internal p s _ (Or.inl hF)]
    unfold fires
    rw [hF]
  · intro p s x xs y hF h1 hno h2
    have hidx1 : (processSample p s x).1.index =
        if (processSample p s x).2.2 then 1 else 0 := by
      rw [processSample_index, h1]
      simp
    have hle1 : (processSample p s x).1.index ≤ p.width :=
      processSample_index_le_of_acc p s x h1
    have hrun := processList_index_noacc p xs (processSample p s x).1 hno
    have hle2 := processList_index_le p xs (processSample p s x).1 hle1
    rw [processSample_acc] at h2
    have ht := fires_of_acceptedTrigger _ _ _ h2
    unfold fires at ht
    rw [hF] at ht
    have hge := of_decide_eq_true ht
    by_cases hw : (processSample p s x).2.2 = true
    · simp only [hw, if_true] at hidx1 ⊢
      omega
    · rw [Bool.not_eq_true] at hw
      simp only [hw, Bool.false_eq_true, if_false] at hidx1 ⊢
      omega

/-- Witness running the free-trigger theorem on a width-one display:
the first accepted trigger resets the index and immediately writes one
column, no intermediate samples intervene, the next sample triggers
again, and exactly one write lies between the two triggers. -/
theorem free_trigger_fires_at_full_buffer_witness :
    (processSample pFreeW sFreeW 0).2.1 = decide (pFreeW.width ≤ sFreeW.index) ∧
    (if (processSample pFreeW sFreeW 0).2.2 then 1 else 0) +
      countWrites (processList pFreeW (processSample pFreeW sFreeW 0).1 []).2 =
      pFreeW.width := by
  constructor
  · exact free_trigger_fires_at_full_buffer.1 pFreeW sFreeW 0 rfl
  · exact free_trigger_fires_at_full_buffer.2 pFreeW sFreeW 0 [] 0 rfl
      (by norm_num [processSample, acceptedTrigger, fires, gainedSample, dcUpdate, snap,
        jlimit, pFreeW, sFreeW])
      (by simp [processList])
      (by norm_num [processSample, processList, acceptedTrigger, fires, gainedSample,
        dcUpdate, snap, jlimit, nextPhase, afterTrigger, extremaUpdate, boundaryStep,
        jmap, centerY, zeroTail, floatLowest, floatMax, pFreeW, sFreeW])

end Oscilloscope.WaveformDisplay

namespace Oscilloscope

/-- Snapping never increases the magnitude. -/
theorem snap_abs_le (x : ℚ) : |snap x| ≤ |x| := by
  unfold snap
  split
  · simp
  · exact le_refl _

end Oscilloscope

namespace Oscilloscope.WaveformDisplay

/-- Composition of DC filter iterations. -/
theorem dcIter_add (R : ℚ) (m : ℕ) :
    ∀ (n : ℕ) (st : ℚ × ℚ), dcIter R (m + n) st = dcIter R m (dcIter R n st) := by
  intro n
  induction n with
  | zero => intro st; rfl
  | succ n ih =>
    intro st
    show dcIter R (m + n + 1) st = dcIter R m (dcIter R (n + 1) st)
    simp only [dcIter]
    exact ih _

/-- The zeroed DC filter state is a fixed point. -/
theorem dcIter_zero_fix (R : ℚ) : ∀ m : ℕ, dcIter R m (0, 0) = (0, 0) := by
  intro m
  induction m with
  | zero => rfl
  | succ m ih =>
    have hstep : dcIter R (m + 1) (0, 0) = dcIter R m (snap (0 - 0 + R * 0), 0) := by
      simp only [dcIter]
    have harg : snap ((0 : ℚ) - 0 + R * 0) = 0 := by
      norm_num [snap]
    rw [hstep, harg]
    exact ih

/-- Geometric decay of the DC accumulator under zero input: after k
further samples from charge d the magnitude is at most R^k times the
initial magnitude, and the stored previous input stays zero. -/
theorem dcIter_abs (R : ℚ) (hR0 : 0 ≤ R) :
    ∀ (k : ℕ) (d : ℚ),
      |(dcIter R k (d, 0)).1| ≤ R ^ k * |d| ∧ (dcIter R k (d, 0)).2 = 0 := by
  intro k
  induction k with
  | zero => intro d; simp [dcIter]
  | succ k ih =>
    intro d
    have hstep : dcIter R (k + 1) (d, 0) = dcIter R k (snap (0 - 0 + R * d), 0) := by
      simp only [dcIter]
    have harg : (0 : ℚ) - 0 + R * d = R * d := by ring
    rw [hstep, harg]
    obtain ⟨h1, h2⟩ := ih (snap (R * d))
    refine ⟨?_, h2⟩
    calc |(dcIter R k (snap (R * d), 0)).1| ≤ R ^ k * |snap (R * d)| := h1
      _ ≤ R ^ k * |R * d| :=
          mul_le_mul_of_nonneg_left (snap_abs_le _) (pow_nonneg hR0 k)
      _ = R ^ (k + 1) * |d| := by
          rw [abs_mul, abs_of_nonneg hR0]
          ring

/-- With a coefficient in [0, 1), the DC filter state reaches exactly
(0, 0) after finitely many zero-input samples and stays there. -/
theorem dcIter_eventually_zero (R : ℚ) (hR0 : 0 ≤ R) (hR1 : R < 1) (st : ℚ × ℚ) :
    ∃ N, ∀ n, N ≤ n → dcIter R n st = (0, 0) := by
  have h1 : dcIter R 1 st = (snap (0 - st.2 + R * st.1), 0) := by
    simp only [dcIter]
  set d := snap (0 - st.2 + R * st.1) with hd
  obtain ⟨k, hk⟩ : ∃ k, R ^ k * |d| < 1 / 10 ^ 10 := by
    rcases eq_or_lt_of_le (abs_nonneg d) with hz | hpos
    · exact ⟨0, by rw [pow_zero, one_mul, ← hz]; norm_num⟩
    · obtain ⟨k, hk⟩ := exists_pow_lt_of_lt_one
        (div_pos (by norm_num : (0 : ℚ) < 1 / 10 ^ 10) hpos) hR1
      refine ⟨k, ?_⟩
      rw [lt_div_iff₀ hpos] at hk
      exact hk
  have habs := dcIter_abs R hR0 k d
  have hone : ∀ x : ℚ, |x| < 1 / 10 ^ 10 → dcIter R 1 (x, 0) = (0, 0) := by
    intro x hx
    have hsnap : snap ((0 : ℚ) - 0 + R * x) = 0 := by
      unfold snap
      rw [if_pos ?hlt]
      case hlt =>
        have : (0 : ℚ) - 0 + R * x = R * x := by ring
        rw [this, abs_mul, abs_of_nonneg hR0]
        calc R * |x| ≤ 1 * |x| := mul_le_mul_of_nonneg_right (le_of_lt hR1) (abs_nonneg x)
          _ = |x| := one_mul _
          _ < 1 / 10 ^ 10 := hx
    simp only [dcIter]
    rw [hsnap]
  have hk1 : dcIter R (k + 1) (d, 0) = (0, 0) := by
    have hcomm : k + 1 = 1 + k := by omega
    rw [hcomm, dcIter_add R 1 k]
    have hx : |(dcIter R k (d, 0)).1| < 1 / 10 ^ 10 := lt_of_le_of_lt habs.1 hk
    have hpair : dcIter R k (d, 0) = ((dcIter R k (d, 0)).1, (dcIter R k (d, 0)).2) := rfl
    rw [habs.2] at hpair
    rw [hpair]
    exact hone _ hx
  refine ⟨k + 2, fun n hn => ?_⟩
  have hsplit : dcIter R n st = dcIter R (n - (k + 2)) (dcIter R (k + 2) st) := by
    rw [← dcIter_add]
    congr 1
    omega
  have h2 : dcIter R (k + 2) st = (0, 0) := by
    have hsteps : dcIter R (k + 2) st = dcIter R (k + 1) (dcIter R 1 st) := by
      rw [← dcIter_add]
    rw [hsteps, h1, hk1]
  rw [hsplit, h2]
  exact dcIter_zero_fix R _

/-- Bridge between the full per-sample loop on a zero block and the
isolated DC filter iteration: only the DC accumulator and the stored
previous input participate. -/
theorem processList_replicate_dc (p : Parameters) :
    ∀ (n : ℕ) (s : State),
      (processList p s (List.replicate n 0)).1.dcKill =
        (dcIter p.R n (s.dcKill, s.dcFilterTemp)).1 ∧
      (processList p s (List.replicate n 0)).1.dcFilterTemp =
        (dcIter p.R n (s.dcKill, s.dcFilterTemp)).2 := by
  intro n
  induction n with
  | zero => intro s; exact ⟨rfl, rfl⟩
  | succ n ih =>
    intro s
    rw [List.replicate_succ, processList_cons]
    have hdc := processSample_dc p s 0
    have hrec := ih (processSample p s 0).1
    rw [hdc.1, hdc.2] at hrec
    simp only [dcUpdate] at hrec
    simp only [dcIter]
    exact hrec

/-- C6: the DC filter computes dc = f - prevInput + R*dc and snaps
results below 1e-10 in magnitude to exactly zero; consequently, with
R = 1 - 250/sampleRate for any sample rate above 250, for every
initial state a constant zero input drives the filter output to
exactly 0 after finitely many samples, and it stays 0 thereafter. -/
theorem dc_filter_zero_input_converges (p : Parameters) (sr : ℚ)
    (hsr : 250 < sr) (hR : p.R = 1 - 250 / sr) :
    (∀ (s : State) (f : ℚ),
        (processSample p s f).1.dcKill =
          (if |f - s.dcFilterTemp + p.R * s.dcKill| < 1 / 10 ^ 10 then 0
           else f - s.dcFilterTemp + p.R * s.dcKill)) ∧
    (∀ s : State, ∃ N, ∀ n, N ≤ n →
        (processList p s (List.replicate n 0)).1.dcKill = 0) := by
  have hsr0 : (0 : ℚ) < sr := by linarith
  have hR0 : 0 ≤ p.R := by
    rw [hR]
    have h1 : 250 / sr < 1 := (div_lt_one hsr0).2 (by linarith)
    linarith
  have hR1 : p.R < 1 := by
    rw [hR]
    have h2 : 0 < 250 / sr := div_pos (by norm_num) hsr0
    linarith
  constructor
  · intro s f
    rw [(processSample_dc p s f).1]
    rfl
  · intro s
    obtain ⟨N, hN⟩ := dcIter_eventually_zero p.R hR0 hR1 (s.dcKill, s.dcFilterTemp)
    refine ⟨N, fun n hn => ?_⟩
    rw [(processList_replicate_dc p n s).1, hN n hn]

/-- Witness applying the convergence theorem at the 48 kHz coefficient
with an initially charged filter. -/
theorem dc_filter_zero_input_converges_witness :
    (250 : ℚ) < 48000 ∧ pDCw.R = 1 - 250 / 48000 ∧
    (∃ N, ∀ n, N ≤ n → (processList pDCw sDCw (List.replicate n 0)).1.dcKill = 0) :=
  ⟨by norm_num, rfl,
   (dc_filter_zero_input_converges pDCw 48000 (by norm_num) rfl).2 sDCw⟩

end Oscilloscope.WaveformDisplay
